import Mathlib

/-!
Verification development for the wavie-claude-bot contextual-retrieval
subsystem: the document index (chunking, keyword extraction, inverted
index, lexical search) and the bounded, time-expiring conversation store.

The Go source is embedded shallowly:

* Strings handled character-wise are modelled as `List Char`; Go's byte
  length is modelled as character count (exact for ASCII text).
* Go's `float64` scores are modelled by an ordered additive monoid `α`
  together with an explicit weight function `w : Nat → Nat → α` giving the
  weight the code computes as `math.Log(totalChunks/postingLen) + 1`; the
  theorems that mention the concrete weight instantiate `α := ℝ` and
  `w := fun t l => Real.log (t / l) + 1`.
* Go map iteration order is unspecified, so the search embedding takes the
  iteration order of the score map as an explicit parameter `iterOrder`,
  constrained to enumerate exactly the keys of the map.
* Time (`time.Now`, `time.Since`) is modelled by an explicit `now : Nat`
  parameter; `time.Since(t) > maxAge` becomes `now - t > maxAge`.
-/

namespace Wavie

/-- Chunk record from the document service (`ID`, `DocPath`, `Title`,
`Content`, `Keywords`, `Score`); the score type `α` stands for `float64`. -/
structure Chunk (α : Type) where
  id : String
  docPath : String
  title : String
  content : String
  keywords : List String
  score : α
deriving DecidableEq

/-- DocumentService state: the document list (kept as raw contents), the
chunk list, and the inverted index `keywords` mapping a keyword to its
posting list of chunk positions. -/
structure DocumentService (α : Type) where
  documents : List String
  chunks : List (Chunk α)
  keywords : String → List Nat

/-- The fixed stop-word table of `extractKeywords`. -/
def stopWords : List String :=
  ["the", "and", "for", "are", "but",
   "not", "you", "all", "can", "had",
   "her", "was", "one", "our", "out",
   "day", "get", "has", "him", "his",
   "how", "its", "may", "new", "now",
   "old", "see", "two", "way", "who",
   "this", "that", "with", "have", "from",
   "they", "know", "want", "been", "good",
   "much", "some", "time", "very", "when",
   "come", "here", "just", "like", "long",
   "make", "many", "over", "such", "take",
   "than", "them", "well", "were"]

/-- One step of the `extractKeywords` loop: the pair holds the keyword
slice built so far and the `seen` set (as a list). A word is kept when it
is not a stop word, not seen yet, and longer than 3 characters. -/
def extractStep (acc : List String × List String) (word : String) :
    List String × List String :=
  if ¬ stopWords.contains word ∧ ¬ acc.2.contains word ∧ word.length > 3 then
    (acc.1 ++ [word], acc.2 ++ [word])
  else acc

/-- `extractKeywords` after tokenisation: the Go code lowercases the text
and takes the regex tokens `[a-z]` runs of length ≥ 3; those tokens are
the `tokens` argument here, and this function applies the stop-word,
seen-set and length filters exactly as the source loop does. -/
def extractKeywords (tokens : List String) : List String :=
  (tokens.foldl extractStep ([], [])).1

/-- Posting lists built from chunk position `n` on: for each chunk, for
each of its keywords equal to `kw`, the chunk's position is appended.
This is `buildKeywordIndex`'s map entry for key `kw`, generalised over
the starting position. -/
def buildKeywordIndexFrom (α : Type) (n : Nat) (chunks : List (Chunk α))
    (kw : String) : List Nat :=
  match chunks with
  | [] => []
  | c :: rest =>
      ((c.keywords.filter (fun k => k = kw)).map (fun _ => n)) ++
        buildKeywordIndexFrom α (n + 1) rest kw

/-- The inverted index `buildKeywordIndex` constructs: keyword `kw` maps
to the list of chunk positions whose keyword list contains `kw` (one
entry per occurrence), in increasing position order. A keyword occurs as
a key of the Go map exactly when this list is nonempty. -/
def buildKeywordIndex {α : Type} (chunks : List (Chunk α)) : String → List Nat :=
  fun kw => buildKeywordIndexFrom α 0 chunks kw

/-- Accumulated score map of `SearchRelevantChunks` (`chunkScores` in the
source): for each query word with a nonempty posting list, the weight
`w totalChunks postingLen` is added at every position of the posting
list. Positions never touched have score `0` (absent map keys). -/
def chunkScores {α : Type} [AddCommMonoid α] (w : Nat → Nat → α)
    (ds : DocumentService α) (queryWords : List String) : Nat → α :=
  queryWords.foldl
    (fun sc qw =>
      let chunkIndices := ds.keywords qw
      if chunkIndices.isEmpty then sc
      else
        chunkIndices.foldl
          (fun sc2 i => fun j =>
            if j = i then sc2 j + w ds.chunks.length chunkIndices.length
            else sc2 j)
          sc)
    (fun _ => 0)

/-- The key set of the score map: every position reached through some
query word's posting list, deduplicated. `SearchRelevantChunks` iterates
the Go map over exactly these keys, in an unspecified order. -/
def scoreKeys {α : Type} (ds : DocumentService α) (queryWords : List String) :
    List Nat :=
  (queryWords.flatMap ds.keywords).dedup

/-- Comparator of the `sort.Slice` call: chunk `a` precedes chunk `b`
when its score is at least `b`'s (descending order). -/
def scoreGE {α : Type} [LinearOrder α] : Chunk α → Chunk α → Prop :=
  fun a b => b.score ≤ a.score

instance {α : Type} [LinearOrder α] : IsTotal (Chunk α) scoreGE :=
  ⟨fun a b => le_total b.score a.score⟩

instance {α : Type} [LinearOrder α] : IsTrans (Chunk α) scoreGE :=
  ⟨fun _ _ _ hab hbc => le_trans hbc hab⟩

instance {α : Type} [LinearOrder α] : DecidableRel (scoreGE (α := α)) :=
  fun a b => inferInstanceAs (Decidable (b.score ≤ a.score))

/-- `SearchRelevantChunks`: empty result on an empty chunk list or an
empty extracted query; otherwise score, collect the scored chunks in map
iteration order `iterOrder` (the source guards each key with
`chunkIndex < len(ds.chunks)`, modelled by the `List.get?` lookup), sort
descending by score with `sort.Slice` and keep the first `maxChunks`.
`sort.Slice` is not stable and its input order is the unspecified map
iteration order, so the embedding sorts stably after the arbitrary
enumeration `iterOrder`: the achievable outputs are exactly the
score-descending orderings of the scored chunks, as for the source. -/
def SearchRelevantChunks {α : Type} [LinearOrder α] [AddCommMonoid α]
    (w : Nat → Nat → α) (ds : DocumentService α) (tokens : List String)
    (maxChunks : Nat) (iterOrder : List Nat) : List (Chunk α) :=
  if ds.chunks.isEmpty then []
  else
    let queryWords := extractKeywords tokens
    if queryWords.isEmpty then []
    else
      let score := chunkScores w ds queryWords
      let scoredChunks :=
        iterOrder.filterMap
          (fun i => (ds.chunks.get? i).map (fun c => { c with score := score i }))
      (scoredChunks.insertionSort scoreGE).take maxChunks

/-- Search as the specification words it: the scored chunks are listed in
original chunk position order and sorted by score descending with a
stable sort, so equal scores keep original position order; at most
`maxChunks` results. Used to compare the source behaviour against the
spec sentence. -/
def SearchRelevantChunksSpec {α : Type} [LinearOrder α] [AddCommMonoid α]
    (w : Nat → Nat → α) (ds : DocumentService α) (tokens : List String)
    (maxChunks : Nat) : List (Chunk α) :=
  if ds.chunks.isEmpty then []
  else
    let queryWords := extractKeywords tokens
    if queryWords.isEmpty then []
    else
      let score := chunkScores w ds queryWords
      let scoredChunks :=
        (((List.range ds.chunks.length).filter
            (fun i => i ∈ scoreKeys ds queryWords)).filterMap
          (fun i => (ds.chunks.get? i).map (fun c => { c with score := score i })))
      (scoredChunks.insertionSort scoreGE).take maxChunks

/-- The query keywords that match chunk position `i`: those whose posting
list in the inverted index contains `i`. -/
def matchedKeywords {α : Type} (ds : DocumentService α) (tokens : List String)
    (i : Nat) : List String :=
  (extractKeywords tokens).filter (fun kw => i ∈ ds.keywords kw)

/-! ### Document chunking (`chunkDocument`, `splitBySections`, `splitIntoChunks`)

Text is a `List Char`; Go's `len` (bytes) is the character count (exact
for ASCII). -/

/-- Helper of `fields`: accumulates the current word (in reverse). -/
def fieldsAux : List Char → List Char → List (List Char)
  | [], cur => if cur.isEmpty then [] else [cur.reverse]
  | c :: rest, cur =>
      if c.isWhitespace then
        if cur.isEmpty then fieldsAux rest [] else cur.reverse :: fieldsAux rest []
      else fieldsAux rest (c :: cur)

/-- `strings.Fields`: the maximal whitespace-free runs of the text, in
order; never contains an empty word. -/
def fields (t : List Char) : List (List Char) :=
  fieldsAux t []

/-- Helper of `splitLines`: accumulates the current line (in reverse). -/
def splitLinesAux : List Char → List Char → List (List Char)
  | [], cur => [cur.reverse]
  | c :: rest, cur =>
      if c = '\n' then cur.reverse :: splitLinesAux rest []
      else splitLinesAux rest (c :: cur)

/-- `strings.Split(content, "\n")`: the lines of the text, keeping empty
lines, without their terminating newline. -/
def splitLines (t : List Char) : List (List Char) :=
  splitLinesAux t []

/-- `strings.TrimSpace`: drop whitespace from both ends. -/
def trimSpace (t : List Char) : List Char :=
  ((t.dropWhile Char.isWhitespace).reverse.dropWhile Char.isWhitespace).reverse

/-- `strings.HasPrefix(line, "#")` on a character list. -/
def startsWithHash : List Char → Bool
  | '#' :: _ => true
  | _ => false

/-- `splitBySections`: walk the lines; a line whose trimmed form starts
with `#` closes the current nonempty section; every line (with a
restored newline) is appended to the current section builder; a final
nonempty builder is emitted. -/
def splitBySections (content : List Char) : List (List Char) :=
  let step := fun (acc : List (List Char) × List Char) (line : List Char) =>
    if startsWithHash (trimSpace line) ∧ acc.2.length > 0 then
      (acc.1 ++ [acc.2], line ++ ['\n'])
    else (acc.1, acc.2 ++ line ++ ['\n'])
  let fin := (splitLines content).foldl step ([], [])
  if fin.2.length > 0 then fin.1 ++ [fin.2] else fin.1

/-- The word-packing loop of `splitIntoChunks`: flush the current chunk
when adding the next word (plus a joining space) would exceed
`chunkSize` and the current chunk is nonempty; words are joined with a
single space; a final nonempty chunk is emitted. -/
def splitIntoChunksLoop (chunkSize : Nat) :
    List (List Char) → List Char → List (List Char)
  | [], cur => if cur.length > 0 then [cur] else []
  | w :: ws, cur =>
      if cur.length + w.length + 1 > chunkSize ∧ cur.length > 0 then
        cur :: splitIntoChunksLoop chunkSize ws w
      else
        splitIntoChunksLoop chunkSize ws
          (if cur.length > 0 then cur ++ [' '] ++ w else cur ++ w)

/-- `splitIntoChunks`: texts within the bound pass through unchanged;
longer texts are split into whitespace-delimited words and greedily
repacked. -/
def splitIntoChunks (text : List Char) (chunkSize : Nat) : List (List Char) :=
  if text.length ≤ chunkSize then [text]
  else splitIntoChunksLoop chunkSize (fields text) []

/-- `chunkDocument`, restricted to the chunk contents it appends: each
section within the size bound becomes one chunk; larger sections go
through `splitIntoChunks`. The source first applies `cleanContent` (a
regex newline collapse plus trim); the theorems quantify over the
already-cleaned content string, which subsumes any `cleanContent`
output. -/
def chunkDocument (content : List Char) (chunkSize : Nat) : List (List Char) :=
  (splitBySections content).flatMap
    (fun sec => if sec.length ≤ chunkSize then [sec] else splitIntoChunks sec chunkSize)

/-! ### Conversation store (`conversation` package) -/

/-- Message record: role, content, creation timestamp. -/
structure Message where
  role : String
  content : String
  timestamp : Nat
deriving DecidableEq

/-- ConversationContext record: thread id, ordered messages, last-accessed
timestamp. -/
structure ConversationContext where
  threadID : String
  messages : List Message
  lastAccessed : Nat
deriving DecidableEq

/-- Store record: the thread map plus the `maxMessages` and `maxAge`
limits. The Go map holds pointers; mutation through a fetched pointer is
modelled by writing the updated context back into the map. -/
structure Store where
  conversations : String → Option ConversationContext
  maxMessages : Nat
  maxAge : Nat

/-- `GetOrCreate`: fetch or create the thread's context (a fresh context
carries `LastAccessed = now`); clear its messages when it is older than
`maxAge`; set `LastAccessed := now`; return it and the updated store. -/
def GetOrCreate (s : Store) (threadID : String) (now : Nat) :
    ConversationContext × Store :=
  let fetched :=
    match s.conversations threadID with
    | some c => (c, s)
    | none =>
        let c : ConversationContext := ⟨threadID, [], now⟩
        (c, { s with conversations :=
                fun t => if t = threadID then some c else s.conversations t })
  let ctx0 := fetched.1
  let ctx1 := if now - ctx0.lastAccessed > s.maxAge then
      { ctx0 with messages := [] } else ctx0
  let ctx2 := { ctx1 with lastAccessed := now }
  (ctx2, { fetched.2 with conversations :=
      fun t => if t = threadID then some ctx2 else fetched.2.conversations t })

/-- `AddMessage`: `GetOrCreate`, append the new message with the current
timestamp, and when the sequence exceeds `maxMessages` keep only the
last `maxMessages` entries. -/
def AddMessage (s : Store) (threadID role content : String) (now : Nat) : Store :=
  let got := GetOrCreate s threadID now
  let ctx := got.1
  let msgs := ctx.messages ++ [⟨role, content, now⟩]
  let msgs2 := if msgs.length > s.maxMessages then
      msgs.drop (msgs.length - s.maxMessages) else msgs
  let ctx2 := { ctx with messages := msgs2 }
  { got.2 with conversations :=
      fun t => if t = threadID then some ctx2 else got.2.conversations t }

/-- `GetMessages`: empty result when the thread is absent or its entry is
older than `maxAge`; otherwise the stored messages. The store comes back
with the result to record that the read mutates nothing. -/
def GetMessages (s : Store) (threadID : String) (now : Nat) :
    List Message × Store :=
  match s.conversations threadID with
  | none => ([], s)
  | some c => if now - c.lastAccessed > s.maxAge then ([], s) else (c.messages, s)

/-! ### LoadFromZip as a sequence of observable states

`LoadFromZip` mutates the service in place with no lock: it truncates
`ds.documents`, truncates `ds.chunks`, replaces `ds.keywords` with an
empty map, then appends each document and its chunks, and only at the
end rebuilds the inverted index. The per-document chunking and keyword
extraction are supplied as the already-computed `(document, chunks)`
pairs; the states listed here are the successive contents of the shared
service another goroutine can observe between those mutations. -/

/-- States after each document of the load loop is appended. -/
def loadDocsLoop {α : Type} (s : DocumentService α) :
    List (String × List (Chunk α)) → List (DocumentService α)
  | [] => []
  | (d, cs) :: rest =>
      let s2 := { s with documents := s.documents ++ [d], chunks := s.chunks ++ cs }
      s2 :: loadDocsLoop s2 rest

/-- The successive observable states of `LoadFromZip`: the prior state,
the three in-place truncations, one state per appended document, and the
final state with the rebuilt inverted index. -/
def LoadFromZipStates {α : Type} (old : DocumentService α)
    (docs : List (String × List (Chunk α))) : List (DocumentService α) :=
  let s1 := { old with documents := [] }
  let s2 := { s1 with chunks := [] }
  let s3 := { s2 with keywords := fun _ => [] }
  let mid := loadDocsLoop s3 docs
  let sEnd := mid.getLastD s3
  let sFinal := { sEnd with keywords := buildKeywordIndex sEnd.chunks }
  old :: s1 :: s2 :: s3 :: (mid ++ [sFinal])

/-! ### Lemmas about the inverted index -/

theorem buildKeywordIndexFrom_lb {α : Type} (chunks : List (Chunk α))
    (kw : String) : ∀ (n : Nat), ∀ j ∈ buildKeywordIndexFrom α n chunks kw, n ≤ j := by
  induction chunks with
  | nil => intro n j hj; simp [buildKeywordIndexFrom] at hj
  | cons c rest ih =>
      intro n j hj
      simp only [buildKeywordIndexFrom, List.mem_append, List.mem_map] at hj
      rcases hj with ⟨x, _, rfl⟩ | hj
      · exact le_refl n
      · exact Nat.le_of_succ_le (ih (n + 1) j hj)

theorem mem_buildKeywordIndexFrom {α : Type} (chunks : List (Chunk α))
    (kw : String) : ∀ (n j : Nat),
    j ∈ buildKeywordIndexFrom α n chunks kw ↔
      n ≤ j ∧ ∃ c, chunks.get? (j - n) = some c ∧ kw ∈ c.keywords := by
  induction chunks with
  | nil => intro n j; simp [buildKeywordIndexFrom]
  | cons c rest ih =>
      intro n j
      simp only [buildKeywordIndexFrom, List.mem_append, List.mem_map, List.mem_filter,
        decide_eq_true_eq, ih (n + 1) j]
      constructor
      · rintro (⟨x, ⟨hx, rfl⟩, rfl⟩ | ⟨h1, c', hc', hkw⟩)
        · exact ⟨le_refl _, c, by simp, hx⟩
        · refine ⟨by omega, c', ?_, hkw⟩
          have hsub : j - n = (j - (n + 1)) + 1 := by omega
          rw [hsub]
          simpa using hc'
      · rintro ⟨hnj, c', hc', hkw⟩
        rcases Nat.eq_or_lt_of_le hnj with heq | hlt
        · left
          subst heq
          simp only [Nat.sub_self, List.get?_cons_zero, Option.some.injEq] at hc'
          subst hc'
          exact ⟨kw, ⟨hkw, rfl⟩, rfl⟩
        · right
          refine ⟨hlt, c', ?_, hkw⟩
          have hsub : j - n = (j - (n + 1)) + 1 := by omega
          rw [hsub] at hc'
          simpa using hc'

theorem mem_buildKeywordIndex {α : Type} (chunks : List (Chunk α))
    (kw : String) (j : Nat) :
    j ∈ buildKeywordIndex chunks kw ↔
      ∃ c, chunks.get? j = some c ∧ kw ∈ c.keywords := by
  rw [buildKeywordIndex, mem_buildKeywordIndexFrom]
  simp

theorem filter_eq_length_le_one {l : List String} (h : l.Nodup) (kw : String) :
    (l.filter (fun k => k = kw)).length ≤ 1 := by
  rcases hfe : l.filter (fun k => k = kw) with _ | ⟨a, _ | ⟨b, tl⟩⟩
  · simp
  · simp
  · exfalso
    have hnd : (l.filter (fun k => k = kw)).Nodup := h.filter _
    rw [hfe] at hnd
    have hab : a ≠ b := by
      have := List.nodup_cons.1 hnd
      exact fun hEq => this.1 (hEq ▸ List.mem_cons_self b tl)
    have ha : a ∈ l.filter (fun k => k = kw) := by rw [hfe]; simp
    have hb : b ∈ l.filter (fun k => k = kw) := by rw [hfe]; simp
    have ha' := (List.mem_filter.1 ha).2
    have hb' := (List.mem_filter.1 hb).2
    simp only [decide_eq_true_eq] at ha' hb'
    exact hab (ha'.trans hb'.symm)

theorem buildKeywordIndexFrom_length_le {α : Type} (chunks : List (Chunk α))
    (kw : String) (hnd : ∀ c ∈ chunks, c.keywords.Nodup) :
    ∀ (n : Nat), (buildKeywordIndexFrom α n chunks kw).length ≤ chunks.length := by
  induction chunks with
  | nil => intro n; simp [buildKeywordIndexFrom]
  | cons c rest ih =>
      intro n
      have h1 : (c.keywords.filter (fun k => k = kw)).length ≤ 1 :=
        filter_eq_length_le_one (hnd c (List.mem_cons_self c rest)) kw
      have h2 := ih (fun c hc => hnd c (List.mem_cons_of_mem _ hc)) (n + 1)
      simp only [buildKeywordIndexFrom, List.length_append, List.length_map, List.length_cons]
      omega

theorem buildKeywordIndexFrom_nodup {α : Type} (chunks : List (Chunk α))
    (kw : String) (hnd : ∀ c ∈ chunks, c.keywords.Nodup) :
    ∀ (n : Nat), (buildKeywordIndexFrom α n chunks kw).Nodup := by
  induction chunks with
  | nil => intro n; simp [buildKeywordIndexFrom]
  | cons c rest ih =>
      intro n
      simp only [buildKeywordIndexFrom]
      refine List.Nodup.append ?_ (ih (fun c hc => hnd c (List.mem_cons_of_mem _ hc)) (n + 1)) ?_
      · have h1 : (c.keywords.filter (fun k => k = kw)).length ≤ 1 :=
          filter_eq_length_le_one (hnd c (List.mem_cons_self c rest)) kw
        rcases hfe : c.keywords.filter (fun k => k = kw) with _ | ⟨a, _ | ⟨b, tl⟩⟩
        · simp
        · simp
        · rw [hfe] at h1; simp at h1
      · intro x hx hx'
        have hxn : x = n := by
          rcases List.mem_map.1 hx with ⟨y, _, rfl⟩
          rfl
        have := buildKeywordIndexFrom_lb rest kw (n + 1) x hx'
        omega

theorem buildKeywordIndex_nodup {α : Type} (chunks : List (Chunk α))
    (kw : String) (hnd : ∀ c ∈ chunks, c.keywords.Nodup) :
    (buildKeywordIndex chunks kw).Nodup :=
  buildKeywordIndexFrom_nodup chunks kw hnd 0

theorem buildKeywordIndex_length_le {α : Type} (chunks : List (Chunk α))
    (kw : String) (hnd : ∀ c ∈ chunks, c.keywords.Nodup) :
    (buildKeywordIndex chunks kw).length ≤ chunks.length :=
  buildKeywordIndexFrom_length_le chunks kw hnd 0

theorem count_buildKeywordIndex {α : Type} (chunks : List (Chunk α))
    (kw : String) (j : Nat) (hnd : ∀ c ∈ chunks, c.keywords.Nodup) :
    (buildKeywordIndex chunks kw).count j
      = if j ∈ buildKeywordIndex chunks kw then 1 else 0 := by
  by_cases h : j ∈ buildKeywordIndex chunks kw
  · rw [if_pos h]
    exact List.count_eq_one_of_mem (buildKeywordIndex_nodup chunks kw hnd) h
  · rw [if_neg h]
    exact List.count_eq_zero.2 h

/-! ### Lemmas about score accumulation -/

theorem scoreFold_apply {α : Type} [AddCommMonoid α] (wt : α) :
    ∀ (pl : List Nat) (sc : Nat → α) (j : Nat),
      (pl.foldl (fun sc2 i => fun j' => if j' = i then sc2 j' + wt else sc2 j') sc) j
        = sc j + pl.count j • wt := by
  intro pl
  induction pl with
  | nil => intro sc j; simp
  | cons i rest ih =>
      intro sc j
      simp only [List.foldl_cons, ih]
      by_cases hji : j = i
      · subst hji
        rw [List.count_cons_self, if_pos rfl, succ_nsmul]
        abel
      · rw [List.count_cons_of_ne hji, if_neg hji]

theorem chunkScores_foldl {α : Type} [AddCommMonoid α] (w : Nat → Nat → α)
    (ds : DocumentService α) :
    ∀ (qws : List String) (sc : Nat → α) (j : Nat),
      (qws.foldl
        (fun sc qw =>
          let chunkIndices := ds.keywords qw
          if chunkIndices.isEmpty then sc
          else
            chunkIndices.foldl
              (fun sc2 i => fun j' =>
                if j' = i then sc2 j' + w ds.chunks.length chunkIndices.length
                else sc2 j')
              sc)
        sc) j
      = sc j + (qws.map (fun qw =>
          (ds.keywords qw).count j • w ds.chunks.length (ds.keywords qw).length)).sum := by
  intro qws
  induction qws with
  | nil => intro sc j; simp
  | cons qw rest ih =>
      intro sc j
      simp only [List.foldl_cons, List.map_cons, List.sum_cons]
      rw [ih]
      by_cases hpl : (ds.keywords qw).isEmpty
      · have hnil : ds.keywords qw = [] := by
          simpa [List.isEmpty_iff] using hpl
        simp [hpl, hnil]
      · simp only [hpl, if_neg, Bool.false_eq_true, not_false_eq_true]
        rw [scoreFold_apply, add_assoc]

theorem chunkScores_apply {α : Type} [AddCommMonoid α] (w : Nat → Nat → α)
    (ds : DocumentService α) (qws : List String) (j : Nat) :
    chunkScores w ds qws j
      = (qws.map (fun qw =>
          (ds.keywords qw).count j • w ds.chunks.length (ds.keywords qw).length)).sum := by
  rw [chunkScores, chunkScores_foldl, zero_add]

theorem sum_map_ite {β α : Type} [AddCommMonoid α] (p : β → Prop) [DecidablePred p]
    (f : β → α) :
    ∀ l : List β,
      (l.map (fun x => if p x then f x else 0)).sum
        = ((l.filter (fun x => p x)).map f).sum := by
  intro l
  induction l with
  | nil => simp
  | cons a t ih => by_cases h : p a <;> simp [h, ih]

theorem chunkScores_eq_matched_sum {α : Type} [AddCommMonoid α] (w : Nat → Nat → α)
    (ds : DocumentService α) (qws : List String) (j : Nat)
    (hidx : ds.keywords = buildKeywordIndex ds.chunks)
    (hnd : ∀ c ∈ ds.chunks, c.keywords.Nodup) :
    chunkScores w ds qws j
      = ((qws.filter (fun kw => j ∈ ds.keywords kw)).map
          (fun kw => w ds.chunks.length (ds.keywords kw).length)).sum := by
  rw [chunkScores_apply]
  have hterm : ∀ kw ∈ qws,
      (ds.keywords kw).count j • w ds.chunks.length (ds.keywords kw).length
        = if j ∈ ds.keywords kw then w ds.chunks.length (ds.keywords kw).length else 0 := by
    intro kw _
    rw [hidx, count_buildKeywordIndex ds.chunks kw j hnd]
    by_cases h : j ∈ buildKeywordIndex ds.chunks kw
    · simp [h]
    · simp [h]
  rw [List.map_congr_left hterm, sum_map_ite]

/-! ### Keyword extraction produces deduplicated keywords -/

theorem extractStep_foldl_invariant :
    ∀ (tokens : List String) (acc : List String × List String),
      acc.1 = acc.2 → acc.1.Nodup →
      (tokens.foldl extractStep acc).1 = (tokens.foldl extractStep acc).2 ∧
        (tokens.foldl extractStep acc).1.Nodup := by
  intro tokens
  induction tokens with
  | nil => intro acc h1 h2; exact ⟨h1, h2⟩
  | cons w rest ih =>
      intro acc h1 h2
      simp only [List.foldl_cons]
      by_cases hc : ¬ stopWords.contains w ∧ ¬ acc.2.contains w ∧ w.length > 3
      · have hw : w ∉ acc.1 := by
          rw [h1]
          simpa using hc.2.1
        have hstep : extractStep acc w = (acc.1 ++ [w], acc.2 ++ [w]) := by
          rw [extractStep, if_pos hc]
        rw [hstep]
        exact ih (acc.1 ++ [w], acc.2 ++ [w]) (by rw [h1])
          (((List.perm_append_singleton w acc.1).nodup_iff).2
            (List.nodup_cons.2 ⟨hw, h2⟩))
  -- the word is filtered out: the accumulator is unchanged
      · have hstep : extractStep acc w = acc := by
          rw [extractStep, if_neg hc]
        rw [hstep]
        exact ih acc h1 h2

theorem extractKeywords_nodup (tokens : List String) :
    (extractKeywords tokens).Nodup :=
  (extractStep_foldl_invariant tokens ([], []) rfl List.nodup_nil).2

/-! ### Claim theorems: scoring -/

/-- C3: with a consistent inverted index over chunks whose keyword lists
are deduplicated (as `extractKeywords` guarantees at ingestion), the
accumulated score of chunk position `i` is the sum, over each distinct
query keyword whose posting list contains `i`, of the weight
`ln(totalChunks / postingListLength) + 1`; a query keyword absent from
the index is simply skipped, and the query keyword list itself carries
no duplicates, so repeated terms never add extra weight. -/
theorem searchScore_is_idf_sum (ds : DocumentService ℝ) (tokens : List String)
    (i : Nat) (hidx : ds.keywords = buildKeywordIndex ds.chunks)
    (hnd : ∀ c ∈ ds.chunks, c.keywords.Nodup) :
    (extractKeywords tokens).Nodup ∧
    chunkScores (fun t l => Real.log ((t : ℝ) / (l : ℝ)) + 1) ds
        (extractKeywords tokens) i
      = ((matchedKeywords ds tokens i).map
          (fun kw => Real.log ((ds.chunks.length : ℝ) / ((ds.keywords kw).length : ℝ)) + 1)).sum :=
  ⟨extractKeywords_nodup tokens,
    chunkScores_eq_matched_sum _ ds (extractKeywords tokens) i hidx hnd⟩

/-- Witness chunk: one keyword. -/
def chunkR0 : Chunk ℝ := ⟨"c0", "doc", "t", "x", ["alpha"], 0⟩

/-- Witness chunk: two keywords. -/
def chunkR1 : Chunk ℝ := ⟨"c1", "doc", "t", "y", ["alpha", "beta"], 0⟩

/-- Witness index state over the two chunks, with a consistent inverted
index. -/
def dsR : DocumentService ℝ :=
  ⟨["doc"], [chunkR0, chunkR1], buildKeywordIndex [chunkR0, chunkR1]⟩

theorem searchScore_is_idf_sum_witness :
    (extractKeywords ["alpha", "beta"]).Nodup ∧
    chunkScores (fun t l => Real.log ((t : ℝ) / (l : ℝ)) + 1) dsR
        (extractKeywords ["alpha", "beta"]) 1
      = ((matchedKeywords dsR ["alpha", "beta"] 1).map
          (fun kw => Real.log ((dsR.chunks.length : ℝ) / ((dsR.keywords kw).length : ℝ)) + 1)).sum :=
  searchScore_is_idf_sum dsR ["alpha", "beta"] 1 rfl (by decide)

theorem chunkScores_matched {α : Type} [AddCommMonoid α] (w : Nat → Nat → α)
    (ds : DocumentService α) (tokens : List String) (i : Nat)
    (hidx : ds.keywords = buildKeywordIndex ds.chunks)
    (hnd : ∀ c ∈ ds.chunks, c.keywords.Nodup) :
    chunkScores w ds (extractKeywords tokens) i
      = ((matchedKeywords ds tokens i).map
          (fun kw => w ds.chunks.length (ds.keywords kw).length)).sum :=
  chunkScores_eq_matched_sum w ds (extractKeywords tokens) i hidx hnd

/-- Every matched keyword's weight `ln(totalChunks/postingLen) + 1` is at
least `1`: the posting list that matched is nonempty and, with
deduplicated chunk keyword lists, no longer than the chunk list. -/
theorem idf_weight_ge_one (ds : DocumentService ℝ) (tokens : List String) (i : Nat)
    (hidx : ds.keywords = buildKeywordIndex ds.chunks)
    (hnd : ∀ c ∈ ds.chunks, c.keywords.Nodup) :
    ∀ kw ∈ matchedKeywords ds tokens i,
      1 ≤ Real.log ((ds.chunks.length : ℝ) / ((ds.keywords kw).length : ℝ)) + 1 := by
  intro kw hkw
  have hmem : i ∈ ds.keywords kw := by
    have := (List.mem_filter.1 hkw).2
    simpa using this
  have hpos : 0 < (ds.keywords kw).length :=
    List.length_pos.2 (fun hnil => by simp [hnil] at hmem)
  have hle : (ds.keywords kw).length ≤ ds.chunks.length := by
    rw [hidx]
    exact buildKeywordIndex_length_le ds.chunks kw hnd
  have hdiv : (1 : ℝ) ≤ (ds.chunks.length : ℝ) / ((ds.keywords kw).length : ℝ) := by
    rw [le_div_iff₀ (by exact_mod_cast hpos)]
    simpa using (Nat.cast_le (α := ℝ)).2 hle
  have hlog : 0 ≤ Real.log ((ds.chunks.length : ℝ) / ((ds.keywords kw).length : ℝ)) :=
    Real.log_nonneg hdiv
  linarith

/-- C8: monotonicity of the accumulated score in the matched-keyword set,
at the source's weight `ln(totalChunks/postingListLength) + 1`: when the
query keywords matching chunk `b` are a subset of those matching chunk
`a`, chunk `b`'s accumulated score is at most chunk `a`'s. -/
theorem searchScore_monotone_in_matches (ds : DocumentService ℝ)
    (tokens : List String) (a b : Nat)
    (hidx : ds.keywords = buildKeywordIndex ds.chunks)
    (hnd : ∀ c ∈ ds.chunks, c.keywords.Nodup)
    (hsub : matchedKeywords ds tokens b ⊆ matchedKeywords ds tokens a) :
    chunkScores (fun t l => Real.log ((t : ℝ) / (l : ℝ)) + 1) ds
        (extractKeywords tokens) b
      ≤ chunkScores (fun t l => Real.log ((t : ℝ) / (l : ℝ)) + 1) ds
          (extractKeywords tokens) a := by
  rw [chunkScores_matched _ ds tokens a hidx hnd, chunkScores_matched _ ds tokens b hidx hnd]
  have hAnd : (matchedKeywords ds tokens a).Nodup :=
    (extractKeywords_nodup tokens).filter _
  have hBnd : (matchedKeywords ds tokens b).Nodup :=
    (extractKeywords_nodup tokens).filter _
  rw [← List.sum_toFinset _ hBnd, ← List.sum_toFinset _ hAnd]
  apply Finset.sum_le_sum_of_subset_of_nonneg
  · intro kw hkw
    exact List.mem_toFinset.2 (hsub (List.mem_toFinset.1 hkw))
  · intro kw hkw _
    have h1 := idf_weight_ge_one ds tokens a hidx hnd kw (List.mem_toFinset.1 hkw)
    linarith

theorem searchScore_monotone_in_matches_witness :
    (matchedKeywords dsR ["alpha", "beta"] 0 ⊆ matchedKeywords dsR ["alpha", "beta"] 1) ∧
    chunkScores (fun t l => Real.log ((t : ℝ) / (l : ℝ)) + 1) dsR
        (extractKeywords ["alpha", "beta"]) 0
      ≤ chunkScores (fun t l => Real.log ((t : ℝ) / (l : ℝ)) + 1) dsR
          (extractKeywords ["alpha", "beta"]) 1 := by
  have h0 : matchedKeywords dsR ["alpha", "beta"] 0 = ["alpha"] := by decide
  have h1 : matchedKeywords dsR ["alpha", "beta"] 1 = ["alpha", "beta"] := by decide
  have hsub : matchedKeywords dsR ["alpha", "beta"] 0 ⊆ matchedKeywords dsR ["alpha", "beta"] 1 := by
    rw [h0, h1]
    intro kw hkw
    simp only [List.mem_singleton] at hkw
    simp [hkw]
  exact ⟨hsub, searchScore_monotone_in_matches dsR ["alpha", "beta"] 1 0 rfl (by decide) hsub⟩

/-! ### Claim theorems: search result shape -/

/-- The scored chunks in a canonical enumeration (first-posting order of
the score-map keys): each key looked up in the chunk list and annotated
with its accumulated score. -/
def scoredChunkList {α : Type} [AddCommMonoid α] (w : Nat → Nat → α)
    (ds : DocumentService α) (tokens : List String) : List (Chunk α) :=
  (scoreKeys ds (extractKeywords tokens)).filterMap
    (fun i => (ds.chunks.get? i).map
      (fun c => { c with score := chunkScores w ds (extractKeywords tokens) i }))

theorem mem_SearchRelevantChunks {α : Type} [LinearOrder α] [AddCommMonoid α]
    (w : Nat → Nat → α) (ds : DocumentService α) (tokens : List String)
    (maxChunks : Nat) (iterOrder : List Nat) :
    ∀ c ∈ SearchRelevantChunks w ds tokens maxChunks iterOrder,
      ∃ i, i ∈ iterOrder ∧ ∃ c0, ds.chunks.get? i = some c0 ∧
        c = { c0 with score := chunkScores w ds (extractKeywords tokens) i } := by
  intro c hc
  simp only [SearchRelevantChunks] at hc
  split_ifs at hc
  · exact absurd hc (List.not_mem_nil c)
  · exact absurd hc (List.not_mem_nil c)
  · have hc3 : c ∈ iterOrder.filterMap
        (fun i => (ds.chunks.get? i).map
          (fun c => { c with score := chunkScores w ds (extractKeywords tokens) i })) :=
      (List.perm_insertionSort scoreGE _).subset (List.take_subset _ _ hc)
    rcases List.mem_filterMap.1 hc3 with ⟨i, hiπ, hfi⟩
    rcases Option.map_eq_some'.1 hfi with ⟨c0, hc0, hcc⟩
    exact ⟨i, hiπ, c0, hc0, hcc.symm⟩

/-- C1 (amended): for any iteration order of the score map, the search
result is sorted by accumulated score in descending order, holds at most
`maxChunks` chunks, and equals a `maxChunks`-prefix of some
score-descending ordering of the full scored-chunk collection (each
chunk annotated with its accumulated score). The order among chunks with
equal scores is not constrained. -/
theorem search_sorted_bounded_annotated {α : Type} [LinearOrder α] [AddCommMonoid α]
    (w : Nat → Nat → α) (ds : DocumentService α) (tokens : List String)
    (maxChunks : Nat) (iterOrder : List Nat)
    (hπ : iterOrder.Perm (scoreKeys ds (extractKeywords tokens))) :
    List.Sorted scoreGE (SearchRelevantChunks w ds tokens maxChunks iterOrder) ∧
    (SearchRelevantChunks w ds tokens maxChunks iterOrder).length ≤ maxChunks ∧
    ∃ full : List (Chunk α), full.Perm (scoredChunkList w ds tokens) ∧
      List.Sorted scoreGE full ∧
      SearchRelevantChunks w ds tokens maxChunks iterOrder = full.take maxChunks := by
  by_cases h1 : ds.chunks.isEmpty
  · have hres : SearchRelevantChunks w ds tokens maxChunks iterOrder = [] := by
      simp [SearchRelevantChunks, h1]
    have hnil : ds.chunks = [] := by simpa [List.isEmpty_iff] using h1
    have hscl : scoredChunkList w ds tokens = [] := by
      simp [scoredChunkList, hnil]
    rw [hres, hscl]
    exact ⟨List.sorted_nil, by simp, [], List.Perm.refl _, List.sorted_nil, by simp⟩
  · by_cases h2 : (extractKeywords tokens).isEmpty
    · have hres : SearchRelevantChunks w ds tokens maxChunks iterOrder = [] := by
        simp [SearchRelevantChunks, h1, h2]
      have hqnil : extractKeywords tokens = [] := by simpa [List.isEmpty_iff] using h2
      have hscl : scoredChunkList w ds tokens = [] := by
        simp [scoredChunkList, scoreKeys, hqnil]
      rw [hres, hscl]
      exact ⟨List.sorted_nil, by simp, [], List.Perm.refl _, List.sorted_nil, by simp⟩
    · have hres : SearchRelevantChunks w ds tokens maxChunks iterOrder
          = ((iterOrder.filterMap
              (fun i => (ds.chunks.get? i).map
                (fun c => { c with score := chunkScores w ds (extractKeywords tokens) i }))).insertionSort
                  scoreGE).take maxChunks := by
        simp [SearchRelevantChunks, h1, h2]
      refine ⟨?_, ?_, (iterOrder.filterMap
          (fun i => (ds.chunks.get? i).map
            (fun c => { c with score := chunkScores w ds (extractKeywords tokens) i }))).insertionSort
              scoreGE, ?_, List.sorted_insertionSort scoreGE _, by rw [hres]⟩
      · rw [hres]
        exact List.Pairwise.sublist (List.take_sublist _ _) (List.sorted_insertionSort scoreGE _)
      · rw [hres, List.length_take]
        exact min_le_left _ _
      · exact (List.perm_insertionSort scoreGE _).trans (hπ.filterMap _)

/-- Witness chunk over `ℤ` scores: one keyword. -/
def chunkZ0 : Chunk ℤ := ⟨"z0", "doc", "t", "x", ["alpha"], 0⟩

/-- Witness chunk over `ℤ` scores: two keywords. -/
def chunkZ1 : Chunk ℤ := ⟨"z1", "doc", "t", "y", ["alpha", "beta"], 0⟩

/-- Witness index state over `ℤ` scores with a consistent inverted index. -/
def dsZ : DocumentService ℤ :=
  ⟨["doc"], [chunkZ0, chunkZ1], buildKeywordIndex [chunkZ0, chunkZ1]⟩

theorem search_sorted_bounded_annotated_witness :
    List.Sorted scoreGE (SearchRelevantChunks (fun _ l => (l : ℤ)) dsZ ["alpha", "beta"] 5 [0, 1]) ∧
    (SearchRelevantChunks (fun _ l => (l : ℤ)) dsZ ["alpha", "beta"] 5 [0, 1]).length ≤ 5 ∧
    ∃ full : List (Chunk ℤ), full.Perm (scoredChunkList (fun _ l => (l : ℤ)) dsZ ["alpha", "beta"]) ∧
      List.Sorted scoreGE full ∧
      SearchRelevantChunks (fun _ l => (l : ℤ)) dsZ ["alpha", "beta"] 5 [0, 1] = full.take 5 :=
  search_sorted_bounded_annotated (fun _ l => (l : ℤ)) dsZ ["alpha", "beta"] 5 [0, 1] (by decide)

/-- Tie fixture: two chunks with the same single keyword, so both receive
exactly the same accumulated score for the query "alpha". -/
def chunkT0 : Chunk ℝ := ⟨"t0", "doc", "t", "x", ["alpha"], 0⟩

/-- Second tie-fixture chunk. -/
def chunkT1 : Chunk ℝ := ⟨"t1", "doc", "t", "y", ["alpha"], 0⟩

/-- Tie-fixture index state with a consistent inverted index. -/
def dsTie : DocumentService ℝ :=
  ⟨["doc"], [chunkT0, chunkT1], buildKeywordIndex [chunkT0, chunkT1]⟩

/-- C1 counterexample: with the map iteration order `[1, 0]` (a legal
enumeration of the score-map keys) the search returns the two tied
chunks in the order `t1, t0`, not in original chunk position order as
the claim's stable sort would; `sort.Slice` gives no tie guarantee. -/
theorem search_not_position_stable_counterexample :
    [1, 0].Perm (scoreKeys dsTie (extractKeywords ["alpha"])) ∧
    SearchRelevantChunks (fun t l => Real.log ((t : ℝ) / (l : ℝ)) + 1) dsTie
        ["alpha"] 2 [1, 0]
      ≠ SearchRelevantChunksSpec (fun t l => Real.log ((t : ℝ) / (l : ℝ)) + 1) dsTie
          ["alpha"] 2 := by
  constructor
  · decide
  · intro heq
    have hge10 : scoreGE
        ({ chunkT1 with score := chunkScores (fun t l => Real.log ((t : ℝ) / (l : ℝ)) + 1) dsTie (extractKeywords ["alpha"]) 1 } : Chunk ℝ)
        ({ chunkT0 with score := chunkScores (fun t l => Real.log ((t : ℝ) / (l : ℝ)) + 1) dsTie (extractKeywords ["alpha"]) 0 } : Chunk ℝ) :=
      le_of_eq rfl
    have hge01 : scoreGE
        ({ chunkT0 with score := chunkScores (fun t l => Real.log ((t : ℝ) / (l : ℝ)) + 1) dsTie (extractKeywords ["alpha"]) 0 } : Chunk ℝ)
        ({ chunkT1 with score := chunkScores (fun t l => Real.log ((t : ℝ) / (l : ℝ)) + 1) dsTie (extractKeywords ["alpha"]) 1 } : Chunk ℝ) :=
      le_of_eq rfl
    have hL : SearchRelevantChunks (fun t l => Real.log ((t : ℝ) / (l : ℝ)) + 1) dsTie
        ["alpha"] 2 [1, 0]
        = [{ chunkT1 with score := chunkScores (fun t l => Real.log ((t : ℝ) / (l : ℝ)) + 1) dsTie (extractKeywords ["alpha"]) 1 },
           { chunkT0 with score := chunkScores (fun t l => Real.log ((t : ℝ) / (l : ℝ)) + 1) dsTie (extractKeywords ["alpha"]) 0 }] := by
      have hstep : (([{ chunkT1 with score := chunkScores (fun t l => Real.log ((t : ℝ) / (l : ℝ)) + 1) dsTie (extractKeywords ["alpha"]) 1 },
            { chunkT0 with score := chunkScores (fun t l => Real.log ((t : ℝ) / (l : ℝ)) + 1) dsTie (extractKeywords ["alpha"]) 0 }] : List (Chunk ℝ)).insertionSort scoreGE)
          = [{ chunkT1 with score := chunkScores (fun t l => Real.log ((t : ℝ) / (l : ℝ)) + 1) dsTie (extractKeywords ["alpha"]) 1 },
             { chunkT0 with score := chunkScores (fun t l => Real.log ((t : ℝ) / (l : ℝ)) + 1) dsTie (extractKeywords ["alpha"]) 0 }] := by
        show List.orderedInsert scoreGE _ (List.orderedInsert scoreGE _ []) = _
        rw [List.orderedInsert, List.orderedInsert, if_pos hge10]
      calc SearchRelevantChunks (fun t l => Real.log ((t : ℝ) / (l : ℝ)) + 1) dsTie ["alpha"] 2 [1, 0]
          = (([{ chunkT1 with score := chunkScores (fun t l => Real.log ((t : ℝ) / (l : ℝ)) + 1) dsTie (extractKeywords ["alpha"]) 1 },
              { chunkT0 with score := chunkScores (fun t l => Real.log ((t : ℝ) / (l : ℝ)) + 1) dsTie (extractKeywords ["alpha"]) 0 }] : List (Chunk ℝ)).insertionSort scoreGE).take 2 := rfl
        _ = _ := by rw [hstep]; rfl
    have hR : SearchRelevantChunksSpec (fun t l => Real.log ((t : ℝ) / (l : ℝ)) + 1) dsTie
        ["alpha"] 2
        = [{ chunkT0 with score := chunkScores (fun t l => Real.log ((t : ℝ) / (l : ℝ)) + 1) dsTie (extractKeywords ["alpha"]) 0 },
           { chunkT1 with score := chunkScores (fun t l => Real.log ((t : ℝ) / (l : ℝ)) + 1) dsTie (extractKeywords ["alpha"]) 1 }] := by
      have hstep : (([{ chunkT0 with score := chunkScores (fun t l => Real.log ((t : ℝ) / (l : ℝ)) + 1) dsTie (extractKeywords ["alpha"]) 0 },
            { chunkT1 with score := chunkScores (fun t l => Real.log ((t : ℝ) / (l : ℝ)) + 1) dsTie (extractKeywords ["alpha"]) 1 }] : List (Chunk ℝ)).insertionSort scoreGE)
          = [{ chunkT0 with score := chunkScores (fun t l => Real.log ((t : ℝ) / (l : ℝ)) + 1) dsTie (extractKeywords ["alpha"]) 0 },
             { chunkT1 with score := chunkScores (fun t l => Real.log ((t : ℝ) / (l : ℝ)) + 1) dsTie (extractKeywords ["alpha"]) 1 }] := by
        show List.orderedInsert scoreGE _ (List.orderedInsert scoreGE _ []) = _
        rw [List.orderedInsert, List.orderedInsert, if_pos hge01]
      calc SearchRelevantChunksSpec (fun t l => Real.log ((t : ℝ) / (l : ℝ)) + 1) dsTie ["alpha"] 2
          = (([{ chunkT0 with score := chunkScores (fun t l => Real.log ((t : ℝ) / (l : ℝ)) + 1) dsTie (extractKeywords ["alpha"]) 0 },
              { chunkT1 with score := chunkScores (fun t l => Real.log ((t : ℝ) / (l : ℝ)) + 1) dsTie (extractKeywords ["alpha"]) 1 }] : List (Chunk ℝ)).insertionSort scoreGE).take 2 := rfl
        _ = _ := by rw [hstep]; rfl
    rw [hL, hR] at heq
    have hid := congrArg (fun l => (l.headD { chunkT0 with score := (0 : ℝ) }).id) heq
    simp [chunkT0, chunkT1] at hid

/-- C10: every chunk the search returns matches at least one extracted
query keyword (chunks matching none are never scored, hence never
returned), and its annotated accumulated score is at least `1`, because
every matched keyword contributes `ln(totalChunks/postingLen) + 1 ≥ 1`. -/
theorem search_results_contain_query_keyword (ds : DocumentService ℝ)
    (tokens : List String) (maxChunks : Nat) (iterOrder : List Nat)
    (hidx : ds.keywords = buildKeywordIndex ds.chunks)
    (hnd : ∀ c ∈ ds.chunks, c.keywords.Nodup)
    (hπ : iterOrder.Perm (scoreKeys ds (extractKeywords tokens))) :
    ∀ c ∈ SearchRelevantChunks (fun t l => Real.log ((t : ℝ) / (l : ℝ)) + 1) ds
        tokens maxChunks iterOrder,
      (∃ kw ∈ extractKeywords tokens, kw ∈ c.keywords) ∧ 1 ≤ c.score := by
  intro c hc
  rcases mem_SearchRelevantChunks _ ds tokens maxChunks iterOrder c hc with
    ⟨i, hiπ, c0, hc0, rfl⟩
  have hik : i ∈ scoreKeys ds (extractKeywords tokens) := hπ.subset hiπ
  have hflat : ∃ qw ∈ extractKeywords tokens, i ∈ ds.keywords qw := by
    rw [scoreKeys, List.mem_dedup, List.mem_flatMap] at hik
    exact hik
  rcases hflat with ⟨qw, hqw, hiq⟩
  have hmatched : qw ∈ matchedKeywords ds tokens i := by
    rw [matchedKeywords, List.mem_filter]
    exact ⟨hqw, by simpa using hiq⟩
  constructor
  · refine ⟨qw, hqw, ?_⟩
    have hiq' := hiq
    rw [hidx] at hiq'
    rcases (mem_buildKeywordIndex ds.chunks qw i).1 hiq' with ⟨c1, hc1, hkw⟩
    have : c1 = c0 := by
      rw [hc0] at hc1
      exact (Option.some.inj hc1).symm
    subst this
    simpa using hkw
  · show (1 : ℝ) ≤ chunkScores (fun t l => Real.log ((t : ℝ) / (l : ℝ)) + 1) ds
      (extractKeywords tokens) i
    rw [chunkScores_matched _ ds tokens i hidx hnd]
    have hnonneg : ∀ x ∈ (matchedKeywords ds tokens i).map
        (fun kw => Real.log ((ds.chunks.length : ℝ) / ((ds.keywords kw).length : ℝ)) + 1),
        (0 : ℝ) ≤ x := by
      intro x hx
      rcases List.mem_map.1 hx with ⟨kw, hkwmem, rfl⟩
      have := idf_weight_ge_one ds tokens i hidx hnd kw hkwmem
      linarith
    have hmem : Real.log ((ds.chunks.length : ℝ) / ((ds.keywords qw).length : ℝ)) + 1
        ∈ (matchedKeywords ds tokens i).map
          (fun kw => Real.log ((ds.chunks.length : ℝ) / ((ds.keywords kw).length : ℝ)) + 1) :=
      List.mem_map_of_mem _ hmatched
    have hle := List.single_le_sum hnonneg _ hmem
    have hge := idf_weight_ge_one ds tokens i hidx hnd qw hmatched
    linarith

theorem search_results_contain_query_keyword_witness :
    "beta" ∈ extractKeywords ["alpha", "beta"] ∧
    "beta" ∈ ({ chunkR1 with score := chunkScores (fun t l => Real.log ((t : ℝ) / (l : ℝ)) + 1) dsR (extractKeywords ["alpha", "beta"]) 1 } : Chunk ℝ).keywords ∧
    1 ≤ ({ chunkR1 with score := chunkScores (fun t l => Real.log ((t : ℝ) / (l : ℝ)) + 1) dsR (extractKeywords ["alpha", "beta"]) 1 } : Chunk ℝ).score := by
  have hs : chunkScores (fun t l => Real.log ((t : ℝ) / (l : ℝ)) + 1) dsR
      (extractKeywords ["alpha", "beta"]) 1
      = chunkScores (fun t l => Real.log ((t : ℝ) / (l : ℝ)) + 1) dsR
          (extractKeywords ["alpha", "beta"]) 0
        + (Real.log (((2 : ℕ) : ℝ) / ((1 : ℕ) : ℝ)) + 1) := rfl
  have hwb : (0 : ℝ) < Real.log (((2 : ℕ) : ℝ) / ((1 : ℕ) : ℝ)) + 1 := by
    have hlog : (0 : ℝ) ≤ Real.log (((2 : ℕ) : ℝ) / ((1 : ℕ) : ℝ)) := by
      apply Real.log_nonneg
      norm_num
    linarith
  have hlt : chunkScores (fun t l => Real.log ((t : ℝ) / (l : ℝ)) + 1) dsR
      (extractKeywords ["alpha", "beta"]) 0
      < chunkScores (fun t l => Real.log ((t : ℝ) / (l : ℝ)) + 1) dsR
          (extractKeywords ["alpha", "beta"]) 1 := by
    rw [hs]
    linarith
  have hneg : ¬ scoreGE
      ({ chunkR0 with score := chunkScores (fun t l => Real.log ((t : ℝ) / (l : ℝ)) + 1) dsR (extractKeywords ["alpha", "beta"]) 0 } : Chunk ℝ)
      ({ chunkR1 with score := chunkScores (fun t l => Real.log ((t : ℝ) / (l : ℝ)) + 1) dsR (extractKeywords ["alpha", "beta"]) 1 } : Chunk ℝ) :=
    not_le.2 hlt
  have hstep : (([{ chunkR0 with score := chunkScores (fun t l => Real.log ((t : ℝ) / (l : ℝ)) + 1) dsR (extractKeywords ["alpha", "beta"]) 0 },
        { chunkR1 with score := chunkScores (fun t l => Real.log ((t : ℝ) / (l : ℝ)) + 1) dsR (extractKeywords ["alpha", "beta"]) 1 }] : List (Chunk ℝ)).insertionSort scoreGE)
      = [{ chunkR1 with score := chunkScores (fun t l => Real.log ((t : ℝ) / (l : ℝ)) + 1) dsR (extractKeywords ["alpha", "beta"]) 1 },
         { chunkR0 with score := chunkScores (fun t l => Real.log ((t : ℝ) / (l : ℝ)) + 1) dsR (extractKeywords ["alpha", "beta"]) 0 }] := by
    show List.orderedInsert scoreGE _ (List.orderedInsert scoreGE _ []) = _
    rw [List.orderedInsert, List.orderedInsert, if_neg hneg, List.orderedInsert]
  have hres : SearchRelevantChunks (fun t l => Real.log ((t : ℝ) / (l : ℝ)) + 1) dsR
      ["alpha", "beta"] 5 [0, 1]
      = [{ chunkR1 with score := chunkScores (fun t l => Real.log ((t : ℝ) / (l : ℝ)) + 1) dsR (extractKeywords ["alpha", "beta"]) 1 },
         { chunkR0 with score := chunkScores (fun t l => Real.log ((t : ℝ) / (l : ℝ)) + 1) dsR (extractKeywords ["alpha", "beta"]) 0 }] := by
    calc SearchRelevantChunks (fun t l => Real.log ((t : ℝ) / (l : ℝ)) + 1) dsR ["alpha", "beta"] 5 [0, 1]
        = (([{ chunkR0 with score := chunkScores (fun t l => Real.log ((t : ℝ) / (l : ℝ)) + 1) dsR (extractKeywords ["alpha", "beta"]) 0 },
            { chunkR1 with score := chunkScores (fun t l => Real.log ((t : ℝ) / (l : ℝ)) + 1) dsR (extractKeywords ["alpha", "beta"]) 1 }] : List (Chunk ℝ)).insertionSort scoreGE).take 5 := rfl
      _ = _ := by rw [hstep]; rfl
  have hmem : ({ chunkR1 with score := chunkScores (fun t l => Real.log ((t : ℝ) / (l : ℝ)) + 1) dsR (extractKeywords ["alpha", "beta"]) 1 } : Chunk ℝ)
      ∈ SearchRelevantChunks (fun t l => Real.log ((t : ℝ) / (l : ℝ)) + 1) dsR
          ["alpha", "beta"] 5 [0, 1] := by
    rw [hres]
    exact List.mem_cons_self _ _
  have happ := search_results_contain_query_keyword dsR ["alpha", "beta"] 5 [0, 1]
    rfl (by decide) (by decide) _ hmem
  exact ⟨by decide, by decide, happ.2⟩

/-! ### Claim theorems: determinism of search -/

/-- Two score-descending lists that are permutations of each other and
have pairwise distinct scores are equal. -/
theorem eq_of_perm_sorted_nodup_scores {α : Type} [LinearOrder α] :
    ∀ (l₁ l₂ : List (Chunk α)), l₁.Perm l₂ → List.Sorted scoreGE l₁ →
      List.Sorted scoreGE l₂ → (l₁.map (fun c => c.score)).Nodup → l₁ = l₂ := by
  intro l₁
  induction l₁ with
  | nil => intro l₂ hp _ _ _; exact hp.nil_eq
  | cons a t ih =>
      intro l₂ hp hs₁ hs₂ hnd
      cases l₂ with
      | nil =>
          exfalso
          have := hp.symm.nil_eq
          simp at this
      | cons b t₂ =>
          have ha2 : a ∈ b :: t₂ := hp.subset (List.mem_cons_self a t)
          have hb1 : b ∈ a :: t := hp.symm.subset (List.mem_cons_self b t₂)
          have hsab : a.score = b.score := by
            have hba : b.score ≤ a.score := by
              rcases List.mem_cons.1 hb1 with h | hbt
              · rw [h]
              · exact (List.sorted_cons.1 hs₁).1 b hbt
            have hab : a.score ≤ b.score := by
              rcases List.mem_cons.1 ha2 with h | hat2
              · rw [h]
              · exact (List.sorted_cons.1 hs₂).1 a hat2
            exact le_antisymm hab hba
          have hndc : a.score ∉ t.map (fun c => c.score) ∧
              (t.map (fun c => c.score)).Nodup := by
            rw [List.map_cons, List.nodup_cons] at hnd
            exact hnd
          have hab : a = b := by
            rcases List.mem_cons.1 hb1 with h | hbt
            · exact h.symm
            · exfalso
              have hmem : a.score ∈ t.map (fun c => c.score) := by
                rw [hsab]
                exact List.mem_map_of_mem _ hbt
              exact hndc.1 hmem
          subst hab
          have := ih t₂ hp.cons_inv (List.sorted_cons.1 hs₁).2
            (List.sorted_cons.1 hs₂).2 hndc.2
          rw [this]

/-- The scores of the scored-chunk entries built over `keys` form a
sublist of the raw score list over `keys` (keys that fail the bound
check are dropped). -/
theorem scores_of_entries_sublist {α : Type} [AddCommMonoid α] (w : Nat → Nat → α)
    (ds : DocumentService α) (tokens : List String) :
    ∀ keys : List Nat,
      ((keys.filterMap
          (fun i => (ds.chunks.get? i).map
            (fun c => { c with score := chunkScores w ds (extractKeywords tokens) i }))).map
        (fun c => c.score)).Sublist
        (keys.map (chunkScores w ds (extractKeywords tokens))) := by
  intro keys
  induction keys with
  | nil => simp
  | cons i ks ih =>
      cases hgi : ds.chunks.get? i with
      | none =>
          simp only [List.filterMap_cons, hgi, Option.map_none', List.map_cons]
          exact ih.cons _
      | some c =>
          simp only [List.filterMap_cons, hgi, Option.map_some', List.map_cons]
          exact ih.cons₂ _

/-- C2 (amended): the search result does not depend on the map iteration
order whenever all accumulated scores are pairwise distinct; the score
map itself is a deterministic function of the index state and query, so
any two calls then return identical ordered results. (With tied scores
the order may differ between calls; see the counterexample.) -/
theorem search_deterministic_of_distinct_scores {α : Type} [LinearOrder α]
    [AddCommMonoid α] (w : Nat → Nat → α) (ds : DocumentService α)
    (tokens : List String) (maxChunks : Nat) (iterOrder1 iterOrder2 : List Nat)
    (h1 : iterOrder1.Perm (scoreKeys ds (extractKeywords tokens)))
    (h2 : iterOrder2.Perm (scoreKeys ds (extractKeywords tokens)))
    (hdist : ((scoreKeys ds (extractKeywords tokens)).map
        (chunkScores w ds (extractKeywords tokens))).Nodup) :
    SearchRelevantChunks w ds tokens maxChunks iterOrder1
      = SearchRelevantChunks w ds tokens maxChunks iterOrder2 := by
  by_cases hce : ds.chunks.isEmpty
  · simp [SearchRelevantChunks, hce]
  · by_cases hqe : (extractKeywords tokens).isEmpty
    · simp [SearchRelevantChunks, hce, hqe]
    · have e1 : SearchRelevantChunks w ds tokens maxChunks iterOrder1
          = ((iterOrder1.filterMap
              (fun i => (ds.chunks.get? i).map
                (fun c => { c with score := chunkScores w ds (extractKeywords tokens) i }))).insertionSort
                  scoreGE).take maxChunks := by
        simp [SearchRelevantChunks, hce, hqe]
      have e2 : SearchRelevantChunks w ds tokens maxChunks iterOrder2
          = ((iterOrder2.filterMap
              (fun i => (ds.chunks.get? i).map
                (fun c => { c with score := chunkScores w ds (extractKeywords tokens) i }))).insertionSort
                  scoreGE).take maxChunks := by
        simp [SearchRelevantChunks, hce, hqe]
      have hperm : ((iterOrder1.filterMap
          (fun i => (ds.chunks.get? i).map
            (fun c => { c with score := chunkScores w ds (extractKeywords tokens) i }))).insertionSort
              scoreGE).Perm
          ((iterOrder2.filterMap
            (fun i => (ds.chunks.get? i).map
              (fun c => { c with score := chunkScores w ds (extractKeywords tokens) i }))).insertionSort
                scoreGE) :=
        (List.perm_insertionSort _ _).trans
          (((h1.filterMap _).trans (h2.filterMap _).symm).trans
            (List.perm_insertionSort _ _).symm)
      have hndsc : (((iterOrder1.filterMap
          (fun i => (ds.chunks.get? i).map
            (fun c => { c with score := chunkScores w ds (extractKeywords tokens) i }))).insertionSort
              scoreGE).map (fun c => c.score)).Nodup := by
        have hsub := scores_of_entries_sublist w ds tokens
          (scoreKeys ds (extractKeywords tokens))
        have hkeys : (((scoreKeys ds (extractKeywords tokens)).filterMap
            (fun i => (ds.chunks.get? i).map
              (fun c => { c with score := chunkScores w ds (extractKeywords tokens) i }))).map
            (fun c => c.score)).Nodup := hsub.nodup hdist
        have hmp : (((iterOrder1.filterMap
            (fun i => (ds.chunks.get? i).map
              (fun c => { c with score := chunkScores w ds (extractKeywords tokens) i }))).insertionSort
                scoreGE).map (fun c => c.score)).Perm
            (((scoreKeys ds (extractKeywords tokens)).filterMap
              (fun i => (ds.chunks.get? i).map
                (fun c => { c with score := chunkScores w ds (extractKeywords tokens) i }))).map
              (fun c => c.score)) :=
          ((List.perm_insertionSort _ _).trans (h1.filterMap _)).map _
        exact hmp.nodup_iff.2 hkeys
      rw [e1, e2,
        eq_of_perm_sorted_nodup_scores _ _ hperm
          (List.sorted_insertionSort _ _) (List.sorted_insertionSort _ _) hndsc]

theorem search_deterministic_of_distinct_scores_witness :
    SearchRelevantChunks (fun _ l => (l : ℤ)) dsZ ["alpha", "beta"] 5 [0, 1]
      = SearchRelevantChunks (fun _ l => (l : ℤ)) dsZ ["alpha", "beta"] 5 [1, 0] :=
  search_deterministic_of_distinct_scores (fun _ l => (l : ℤ)) dsZ
    ["alpha", "beta"] 5 [0, 1] [1, 0] (by decide) (by decide) (by decide)

/-- C2 counterexample: on the tie fixture with map iteration orders
`[0, 1]` and `[1, 0]` (both legal enumerations of the score-map keys)
and `maxResults = 1`, the two calls return different single-chunk
results, so search is not deterministic across calls. -/
theorem search_iteration_order_dependent_counterexample :
    [0, 1].Perm (scoreKeys dsTie (extractKeywords ["alpha"])) ∧
    [1, 0].Perm (scoreKeys dsTie (extractKeywords ["alpha"])) ∧
    SearchRelevantChunks (fun t l => Real.log ((t : ℝ) / (l : ℝ)) + 1) dsTie
        ["alpha"] 1 [0, 1]
      ≠ SearchRelevantChunks (fun t l => Real.log ((t : ℝ) / (l : ℝ)) + 1) dsTie
          ["alpha"] 1 [1, 0] := by
  refine ⟨by decide, by decide, ?_⟩
  intro heq
  have hge10 : scoreGE
      ({ chunkT1 with score := chunkScores (fun t l => Real.log ((t : ℝ) / (l : ℝ)) + 1) dsTie (extractKeywords ["alpha"]) 1 } : Chunk ℝ)
      ({ chunkT0 with score := chunkScores (fun t l => Real.log ((t : ℝ) / (l : ℝ)) + 1) dsTie (extractKeywords ["alpha"]) 0 } : Chunk ℝ) :=
    le_of_eq rfl
  have hge01 : scoreGE
      ({ chunkT0 with score := chunkScores (fun t l => Real.log ((t : ℝ) / (l : ℝ)) + 1) dsTie (extractKeywords ["alpha"]) 0 } : Chunk ℝ)
      ({ chunkT1 with score := chunkScores (fun t l => Real.log ((t : ℝ) / (l : ℝ)) + 1) dsTie (extractKeywords ["alpha"]) 1 } : Chunk ℝ) :=
    le_of_eq rfl
  have hL : SearchRelevantChunks (fun t l => Real.log ((t : ℝ) / (l : ℝ)) + 1) dsTie
      ["alpha"] 1 [0, 1]
      = [{ chunkT0 with score := chunkScores (fun t l => Real.log ((t : ℝ) / (l : ℝ)) + 1) dsTie (extractKeywords ["alpha"]) 0 }] := by
    have hstep : (([{ chunkT0 with score := chunkScores (fun t l => Real.log ((t : ℝ) / (l : ℝ)) + 1) dsTie (extractKeywords ["alpha"]) 0 },
          { chunkT1 with score := chunkScores (fun t l => Real.log ((t : ℝ) / (l : ℝ)) + 1) dsTie (extractKeywords ["alpha"]) 1 }] : List (Chunk ℝ)).insertionSort scoreGE)
        = [{ chunkT0 with score := chunkScores (fun t l => Real.log ((t : ℝ) / (l : ℝ)) + 1) dsTie (extractKeywords ["alpha"]) 0 },
           { chunkT1 with score := chunkScores (fun t l => Real.log ((t : ℝ) / (l : ℝ)) + 1) dsTie (extractKeywords ["alpha"]) 1 }] := by
      show List.orderedInsert scoreGE _ (List.orderedInsert scoreGE _ []) = _
      rw [List.orderedInsert, List.orderedInsert, if_pos hge01]
    calc SearchRelevantChunks (fun t l => Real.log ((t : ℝ) / (l : ℝ)) + 1) dsTie ["alpha"] 1 [0, 1]
        = (([{ chunkT0 with score := chunkScores (fun t l => Real.log ((t : ℝ) / (l : ℝ)) + 1) dsTie (extractKeywords ["alpha"]) 0 },
            { chunkT1 with score := chunkScores (fun t l => Real.log ((t : ℝ) / (l : ℝ)) + 1) dsTie (extractKeywords ["alpha"]) 1 }] : List (Chunk ℝ)).insertionSort scoreGE).take 1 := rfl
      _ = _ := by rw [hstep]; rfl
  have hR : SearchRelevantChunks (fun t l => Real.log ((t : ℝ) / (l : ℝ)) + 1) dsTie
      ["alpha"] 1 [1, 0]
      = [{ chunkT1 with score := chunkScores (fun t l => Real.log ((t : ℝ) / (l : ℝ)) + 1) dsTie (extractKeywords ["alpha"]) 1 }] := by
    have hstep : (([{ chunkT1 with score := chunkScores (fun t l => Real.log ((t : ℝ) / (l : ℝ)) + 1) dsTie (extractKeywords ["alpha"]) 1 },
          { chunkT0 with score := chunkScores (fun t l => Real.log ((t : ℝ) / (l : ℝ)) + 1) dsTie (extractKeywords ["alpha"]) 0 }] : List (Chunk ℝ)).insertionSort scoreGE)
        = [{ chunkT1 with score := chunkScores (fun t l => Real.log ((t : ℝ) / (l : ℝ)) + 1) dsTie (extractKeywords ["alpha"]) 1 },
           { chunkT0 with score := chunkScores (fun t l => Real.log ((t : ℝ) / (l : ℝ)) + 1) dsTie (extractKeywords ["alpha"]) 0 }] := by
      show List.orderedInsert scoreGE _ (List.orderedInsert scoreGE _ []) = _
      rw [List.orderedInsert, List.orderedInsert, if_pos hge10]
    calc SearchRelevantChunks (fun t l => Real.log ((t : ℝ) / (l : ℝ)) + 1) dsTie ["alpha"] 1 [1, 0]
        = (([{ chunkT1 with score := chunkScores (fun t l => Real.log ((t : ℝ) / (l : ℝ)) + 1) dsTie (extractKeywords ["alpha"]) 1 },
            { chunkT0 with score := chunkScores (fun t l => Real.log ((t : ℝ) / (l : ℝ)) + 1) dsTie (extractKeywords ["alpha"]) 0 }] : List (Chunk ℝ)).insertionSort scoreGE).take 1 := rfl
      _ = _ := by rw [hstep]; rfl
  rw [hL, hR] at heq
  have hid := congrArg (fun l => (l.headD { chunkT0 with score := (0 : ℝ) }).id) heq
  simp [chunkT0, chunkT1] at hid

/-! ### Claim theorems: chunk size bound -/

theorem splitIntoChunksLoop_bound (chunkSize : Nat) (allWords : List (List Char)) :
    ∀ (ws : List (List Char)) (cur : List Char),
      (∀ w ∈ ws, w ∈ allWords) →
      (cur.length ≤ chunkSize ∨ cur ∈ allWords) →
      ∀ c ∈ splitIntoChunksLoop chunkSize ws cur,
        c.length ≤ chunkSize ∨ c ∈ allWords := by
  intro ws
  induction ws with
  | nil =>
      intro cur _ hcur c hc
      rw [splitIntoChunksLoop] at hc
      split_ifs at hc
      · rw [List.mem_singleton] at hc
        exact hc ▸ hcur
      · exact absurd hc (List.not_mem_nil c)
  | cons w ws ih =>
      intro cur hws hcur c hc
      rw [splitIntoChunksLoop] at hc
      split_ifs at hc with hcond hpos
      · rcases List.mem_cons.1 hc with rfl | hc'
        · exact hcur
        · exact ih w (fun x hx => hws x (List.mem_cons_of_mem _ hx))
            (Or.inr (hws w (List.mem_cons_self w ws))) c hc'
      · refine ih _ (fun x hx => hws x (List.mem_cons_of_mem _ hx)) ?_ c hc
        have hfit : cur.length + w.length + 1 ≤ chunkSize := by
          rcases Decidable.not_and_iff_or_not.1 hcond with h | h
          · omega
          · omega
        left
        simp only [List.length_append, List.length_cons, List.length_nil]
        omega
      · refine ih _ (fun x hx => hws x (List.mem_cons_of_mem _ hx)) ?_ c hc
        have hzero : cur = [] := List.length_eq_zero.1 (by omega)
        rw [hzero, List.nil_append]
        exact Or.inr (hws w (List.mem_cons_self w ws))

theorem splitIntoChunks_bound (text : List Char) (chunkSize : Nat) :
    ∀ c ∈ splitIntoChunks text chunkSize,
      c.length ≤ chunkSize ∨ c ∈ fields text := by
  intro c hc
  rw [splitIntoChunks] at hc
  split_ifs at hc with h
  · rw [List.mem_singleton] at hc
    exact Or.inl (hc ▸ h)
  · exact splitIntoChunksLoop_bound chunkSize (fields text) (fields text) []
      (fun w hw => hw) (Or.inl (by simp)) c hc

/-- C4: every chunk `chunkDocument` emits from a (cleaned) document is
within the configured chunk size, or else it is a single
whitespace-delimited word of its section (a word longer than the chunk
size is kept whole and becomes a chunk by itself). -/
theorem chunkDocument_size_bound (content : List Char) (chunkSize : Nat) :
    ∀ c ∈ chunkDocument content chunkSize,
      c.length ≤ chunkSize ∨ ∃ sec ∈ splitBySections content, c ∈ fields sec := by
  intro c hc
  rw [chunkDocument] at hc
  rcases List.mem_flatMap.1 hc with ⟨sec, hsec, hcsec⟩
  split_ifs at hcsec with hlen
  · rw [List.mem_singleton] at hcsec
    exact Or.inl (hcsec ▸ hlen)
  · rcases splitIntoChunks_bound sec chunkSize c hcsec with h | h
    · exact Or.inl h
    · exact Or.inr ⟨sec, hsec, h⟩

theorem chunkDocument_size_bound_witness :
    "hello world".toList ∈ chunkDocument "hello world this is a sample".toList 11 ∧
    ("hello world".toList.length ≤ 11 ∨
      ∃ sec ∈ splitBySections "hello world this is a sample".toList,
        "hello world".toList ∈ fields sec) :=
  ⟨by decide, chunkDocument_size_bound "hello world this is a sample".toList 11
    "hello world".toList (by decide)⟩

/-! ### Claim theorems: conversation store -/


def lastN {γ : Type} (n : Nat) (l : List γ) : List γ :=
  l.drop (l.length - n)

theorem trunc_eq_lastN {γ : Type} (n : Nat) (msgs : List γ) :
    (if msgs.length > n then msgs.drop (msgs.length - n) else msgs) = lastN n msgs := by
  rw [lastN]
  split_ifs with h
  · rfl
  · have hz : msgs.length - n = 0 := by omega
    rw [hz, List.drop_zero]

theorem GetOrCreate_snd_maxMessages (s : Store) (tid : String) (now : Nat) :
    (GetOrCreate s tid now).2.maxMessages = s.maxMessages := by
  cases hc : s.conversations tid <;> simp [GetOrCreate, hc]

theorem GetOrCreate_snd_maxAge (s : Store) (tid : String) (now : Nat) :
    (GetOrCreate s tid now).2.maxAge = s.maxAge := by
  cases hc : s.conversations tid <;> simp [GetOrCreate, hc]

theorem AddMessage_maxMessages (s : Store) (tid role content : String)
    (now : Nat) : (AddMessage s tid role content now).maxMessages = s.maxMessages := by
  show (GetOrCreate s tid now).2.maxMessages = s.maxMessages
  exact GetOrCreate_snd_maxMessages s tid now

theorem AddMessage_maxAge (s : Store) (tid role content : String)
    (now : Nat) : (AddMessage s tid role content now).maxAge = s.maxAge := by
  show (GetOrCreate s tid now).2.maxAge = s.maxAge
  exact GetOrCreate_snd_maxAge s tid now

theorem AddMessage_existing (s : Store) (tid : String) (c : ConversationContext)
    (hc : s.conversations tid = some c) (role content : String) (now : Nat)
    (hfresh : now - c.lastAccessed ≤ s.maxAge) :
    (AddMessage s tid role content now).conversations tid
      = some ⟨c.threadID, lastN s.maxMessages (c.messages ++ [⟨role, content, now⟩]), now⟩ := by
  simp only [AddMessage, GetOrCreate, hc, if_neg (Nat.not_lt.2 hfresh)]
  rw [trunc_eq_lastN]
  simp



theorem AddMessage_first (s : Store) (tid role content : String) (now : Nat) :
    ∃ θ base, (AddMessage s tid role content now).conversations tid
      = some ⟨θ, lastN s.maxMessages (base ++ [⟨role, content, now⟩]), now⟩ := by
  cases hc : s.conversations tid with
  | none =>
      refine ⟨tid, [], ?_⟩
      simp only [AddMessage, GetOrCreate, hc]
      rw [if_neg (by omega : ¬ now - now > s.maxAge), trunc_eq_lastN]
      simp
  | some c =>
      by_cases hst : now - c.lastAccessed > s.maxAge
      · refine ⟨c.threadID, [], ?_⟩
        simp only [AddMessage, GetOrCreate, hc]
        rw [if_pos hst, trunc_eq_lastN]
        simp
      · refine ⟨c.threadID, c.messages, ?_⟩
        simp only [AddMessage, GetOrCreate, hc]
        rw [if_neg hst, trunc_eq_lastN]
        simp



theorem lastN_append_expand {γ : Type} (n : Nat) (x b : List γ) :
    lastN n (x ++ b) = x.drop (x.length + b.length - n)
      ++ b.drop (x.length + b.length - n - x.length) := by
  rw [lastN, List.length_append, List.drop_append_eq_append_drop]

theorem lastN_append_lastN {γ : Type} (n : Nat) (a b : List γ) :
    lastN n (lastN n a ++ b) = lastN n (a ++ b) := by
  by_cases ha : a.length ≤ n
  · have h : lastN n a = a := by
      rw [lastN, Nat.sub_eq_zero_of_le ha, List.drop_zero]
    rw [h]
  · have hlen : (lastN n a).length = n := by
      rw [lastN, List.length_drop]
      omega
    rw [lastN_append_expand, lastN_append_expand, hlen]
    by_cases hb : n ≤ b.length
    · have h1 : (lastN n a).drop (n + b.length - n) = [] := by
        apply List.drop_eq_nil_of_le
        rw [hlen]
        omega
      have h2 : a.drop (a.length + b.length - n) = [] := by
        apply List.drop_eq_nil_of_le
        omega
      rw [h1, h2, List.nil_append, List.nil_append]
      congr 1
      omega
    · have h1 : n + b.length - n - n = 0 := by omega
      have h2 : a.length + b.length - n - a.length = 0 := by omega
      rw [h1, h2, List.drop_zero]
      congr 1
      · rw [lastN, List.drop_drop]
        congr 1
        omega

theorem lastN_append_of_le {γ : Type} (n : Nat) (pre post : List γ)
    (h : n ≤ post.length) : lastN n (pre ++ post) = lastN n post := by
  rw [lastN_append_expand]
  have h1 : pre.drop (pre.length + post.length - n) = [] := by
    apply List.drop_eq_nil_of_le
    omega
  rw [h1, List.nil_append, lastN]
  congr 1
  omega

def runAdds (s : Store) (tid : String)
    (items : List (String × String × Nat)) : Store :=
  items.foldl (fun st it => AddMessage st tid it.1 it.2.1 it.2.2) s

def gapsOk (maxAge : Nat) (prev : Nat) : List (String × String × Nat) → Bool
  | [] => true
  | it :: rest => decide (it.2.2 - prev ≤ maxAge) && gapsOk maxAge it.2.2 rest

def gapsOkFrom (maxAge : Nat) : List (String × String × Nat) → Bool
  | [] => true
  | it :: rest => gapsOk maxAge it.2.2 rest

theorem runAdds_existing (tid : String) :
    ∀ (items : List (String × String × Nat)) (s : Store) (c : ConversationContext)
      (m0 : List Message),
      s.conversations tid = some c →
      c.messages = lastN s.maxMessages m0 →
      gapsOk s.maxAge c.lastAccessed items = true →
      (runAdds s tid items).conversations tid
        = some ⟨c.threadID,
            lastN s.maxMessages
              (m0 ++ items.map (fun it => (⟨it.1, it.2.1, it.2.2⟩ : Message))),
            items.foldl (fun _ it => it.2.2) c.lastAccessed⟩ ∧
      (runAdds s tid items).maxMessages = s.maxMessages ∧
      (runAdds s tid items).maxAge = s.maxAge := by
  intro items
  induction items with
  | nil =>
      intro s c m0 hc hm _
      refine ⟨?_, rfl, rfl⟩
      rw [runAdds, List.foldl_nil, hc, List.map_nil, List.append_nil,
        List.foldl_nil, ← hm]
  | cons it rest ih =>
      intro s c m0 hc hm hgaps
      rw [gapsOk, Bool.and_eq_true, decide_eq_true_eq] at hgaps
      have hstep := AddMessage_existing s tid c hc it.1 it.2.1 it.2.2 hgaps.1
      have hrun : runAdds s tid (it :: rest)
          = runAdds (AddMessage s tid it.1 it.2.1 it.2.2) tid rest := rfl
      have hmsg : (⟨c.threadID,
          lastN s.maxMessages (c.messages ++ [⟨it.1, it.2.1, it.2.2⟩]),
          it.2.2⟩ : ConversationContext).messages
          = lastN (AddMessage s tid it.1 it.2.1 it.2.2).maxMessages
              (m0 ++ [⟨it.1, it.2.1, it.2.2⟩]) := by
        rw [AddMessage_maxMessages, hm]
        exact lastN_append_lastN s.maxMessages m0 _
      have ihres := ih (AddMessage s tid it.1 it.2.1 it.2.2)
        ⟨c.threadID, lastN s.maxMessages (c.messages ++ [⟨it.1, it.2.1, it.2.2⟩]), it.2.2⟩
        (m0 ++ [⟨it.1, it.2.1, it.2.2⟩]) hstep hmsg
        (by rw [AddMessage_maxAge]; exact hgaps.2)
      rw [hrun]
      refine ⟨?_, ?_, ?_⟩
      · rw [ihres.1, AddMessage_maxMessages]
        simp [List.append_assoc]
      · rw [ihres.2.1, AddMessage_maxMessages]
      · rw [ihres.2.2, AddMessage_maxAge]



/-- C5: after appending `maxMessages + N` messages (`N ≥ 1`) to one
thread with no expiry between consecutive appends and a timely read,
`GetMessages` returns exactly the most recent `maxMessages` appended
messages in append order: each `AddMessage` drops messages from the
front whenever the bound would be exceeded. -/
theorem conversation_bound_keeps_most_recent (s0 : Store) (tid : String)
    (items : List (String × String × Nat)) (N readTime : Nat)
    (hlen : items.length = s0.maxMessages + N) (hN : 1 ≤ N)
    (hgaps : gapsOkFrom s0.maxAge items = true)
    (hread : readTime - items.foldl (fun _ it => it.2.2) 0 ≤ s0.maxAge) :
    (GetMessages (runAdds s0 tid items) tid readTime).1
      = (items.map (fun it => (⟨it.1, it.2.1, it.2.2⟩ : Message))).drop N := by
  cases items with
  | nil => simp at hlen; omega
  | cons it rest =>
      rcases AddMessage_first s0 tid it.1 it.2.1 it.2.2 with ⟨θ, base, h1⟩
      have hrun : runAdds s0 tid (it :: rest)
          = runAdds (AddMessage s0 tid it.1 it.2.1 it.2.2) tid rest := rfl
      have hmm : (AddMessage s0 tid it.1 it.2.1 it.2.2).maxMessages = s0.maxMessages :=
        AddMessage_maxMessages s0 tid it.1 it.2.1 it.2.2
      have hma : (AddMessage s0 tid it.1 it.2.1 it.2.2).maxAge = s0.maxAge :=
        AddMessage_maxAge s0 tid it.1 it.2.1 it.2.2
      have hgaps' : gapsOk (AddMessage s0 tid it.1 it.2.1 it.2.2).maxAge
          (⟨θ, lastN s0.maxMessages (base ++ [⟨it.1, it.2.1, it.2.2⟩]),
            it.2.2⟩ : ConversationContext).lastAccessed rest = true := by
        rw [hma]
        exact hgaps
      obtain ⟨hfin, hfmm, hfma⟩ := runAdds_existing tid rest
        (AddMessage s0 tid it.1 it.2.1 it.2.2)
        ⟨θ, lastN s0.maxMessages (base ++ [⟨it.1, it.2.1, it.2.2⟩]), it.2.2⟩
        (base ++ [⟨it.1, it.2.1, it.2.2⟩]) h1 (by rw [hmm]) hgaps'
      rw [hrun]
      have hcond : ¬ (readTime - rest.foldl (fun _ it => it.2.2) it.2.2
          > (runAdds (AddMessage s0 tid it.1 it.2.1 it.2.2) tid rest).maxAge) := by
        rw [hfma, hma]
        exact Nat.not_lt.2 hread
      simp only [GetMessages, hfin, if_neg hcond]
      rw [hmm]
      have hsplit : (base ++ [(⟨it.1, it.2.1, it.2.2⟩ : Message)])
          ++ rest.map (fun it => (⟨it.1, it.2.1, it.2.2⟩ : Message))
          = base ++ (it :: rest).map (fun it => (⟨it.1, it.2.1, it.2.2⟩ : Message)) := by
        rw [List.map_cons, List.append_assoc, List.singleton_append]
      rw [hsplit]
      have hlen2 : ((it :: rest).map
          (fun it => (⟨it.1, it.2.1, it.2.2⟩ : Message))).length
          = s0.maxMessages + N := by
        rw [List.length_map]
        exact hlen
      rw [lastN_append_of_le _ _ _ (by rw [hlen2]; exact Nat.le_add_right _ _)]
      rw [lastN, hlen2]
      congr 1
      omega



/-- C6: `GetMessages` changes no store state (in particular it leaves
`lastAccessed` untouched), returns the stored sequence exactly when the
entry exists and `now - lastAccessed ≤ maxAge`, and returns the empty
sequence when the entry is stale or absent — so once time advances
beyond `maxAge` with no writes, the read yields the empty sequence. -/
theorem GetMessages_read_only_and_expiry (s : Store) (tid : String) (now : Nat) :
    (GetMessages s tid now).2 = s ∧
    (∀ c, s.conversations tid = some c → now - c.lastAccessed ≤ s.maxAge →
      (GetMessages s tid now).1 = c.messages) ∧
    (∀ c, s.conversations tid = some c → s.maxAge < now - c.lastAccessed →
      (GetMessages s tid now).1 = []) ∧
    (s.conversations tid = none → (GetMessages s tid now).1 = []) := by
  refine ⟨?_, ?_, ?_, ?_⟩
  · cases hc : s.conversations tid with
    | none => simp [GetMessages, hc]
    | some c =>
        simp only [GetMessages, hc]
        split_ifs <;> rfl
  · intro c hc hf
    simp [GetMessages, hc, Nat.not_lt.2 hf]
  · intro c hc hex
    simp [GetMessages, hc, hex]
  · intro h
    simp [GetMessages, h]

/-- Witness message for the conversation store. -/
def msgW : Message := ⟨"user", "hi", 5⟩

/-- Witness conversation entry, last accessed at time 5. -/
def ctxW : ConversationContext := ⟨"t", [msgW], 5⟩

/-- Witness store: one thread, `maxMessages = 2`, `maxAge = 10`. -/
def convW : Store := ⟨fun t => if t = "t" then some ctxW else none, 2, 10⟩

theorem GetMessages_read_only_and_expiry_witness :
    (GetMessages convW "t" 6).1 = [msgW] ∧
    (GetMessages convW "t" 99).1 = [] ∧
    (GetMessages convW "t" 99).2 = convW :=
  ⟨(GetMessages_read_only_and_expiry convW "t" 6).2.1 ctxW (by decide) (by decide),
   (GetMessages_read_only_and_expiry convW "t" 99).2.2.1 ctxW (by decide) (by decide),
   (GetMessages_read_only_and_expiry convW "t" 99).1⟩

/-- C7: on the write path, when the thread's entry exists but is stale
(`now - lastAccessed > maxAge`), the internal `GetOrCreate` clears the
stored messages and resets `lastAccessed` to `now` before `AddMessage`
appends, so the appended message is the only one retained; the read
path (`GetMessages`) leaves the store — including the stale entry's
messages — unchanged. -/
theorem stale_write_clears_read_does_not (s : Store) (tid : String) (now : Nat)
    (c : ConversationContext) (hc : s.conversations tid = some c)
    (hstale : s.maxAge < now - c.lastAccessed) :
    (GetOrCreate s tid now).1.messages = [] ∧
    (GetOrCreate s tid now).1.lastAccessed = now ∧
    (GetOrCreate s tid now).2.conversations tid = some (GetOrCreate s tid now).1 ∧
    (∀ role content, (AddMessage s tid role content now).conversations tid
      = some ⟨c.threadID, lastN s.maxMessages [⟨role, content, now⟩], now⟩) ∧
    (GetMessages s tid now).2 = s := by
  refine ⟨?_, ?_, ?_, ?_, ?_⟩
  · simp [GetOrCreate, hc, hstale]
  · simp [GetOrCreate, hc, hstale]
  · simp [GetOrCreate, hc, hstale]
  · intro role content
    simp only [AddMessage, GetOrCreate, hc, if_pos hstale]
    rw [trunc_eq_lastN]
    simp
  · simp [GetMessages, hc, hstale]

theorem stale_write_clears_read_does_not_witness :
    (GetOrCreate convW "t" 99).1.messages = [] ∧
    (GetOrCreate convW "t" 99).1.lastAccessed = 99 ∧
    (GetOrCreate convW "t" 99).2.conversations "t" = some (GetOrCreate convW "t" 99).1 ∧
    (∀ role content, (AddMessage convW "t" role content 99).conversations "t"
      = some ⟨"t", lastN convW.maxMessages [⟨role, content, 99⟩], 99⟩) ∧
    (GetMessages convW "t" 99).2 = convW :=
  stale_write_clears_read_does_not convW "t" 99 ctxW (by decide) (by decide)

theorem conversation_bound_keeps_most_recent_witness :
    (GetMessages (runAdds (⟨fun _ => none, 2, 10⟩ : Store) "t"
        [("user", "a", 0), ("user", "b", 1), ("user", "c", 2)]) "t" 3).1
      = ([("user", "a", 0), ("user", "b", 1), ("user", "c", 2)].map
          (fun it => (⟨it.1, it.2.1, it.2.2⟩ : Message))).drop 1 :=
  conversation_bound_keeps_most_recent ⟨fun _ => none, 2, 10⟩ "t"
    [("user", "a", 0), ("user", "b", 1), ("user", "c", 2)] 1 3
    (by decide) (by decide) (by decide) (by decide)


/-! ### Claim theorems: load is not an atomic swap -/

/-- Chunk ingested by the load trace fixture. -/
def chunkL : Chunk ℤ := ⟨"c0", "doc", "t", "x", ["alpha"], 0⟩

/-- Load trace fixture: an empty service loading one document with one
chunk. -/
def dsEmpty : DocumentService ℤ := ⟨[], [], fun _ => []⟩

/-- The observable states of the fixture load. -/
def loadTrace : List (DocumentService ℤ) :=
  LoadFromZipStates dsEmpty [("doc", [chunkL])]

/-- The state after the document and its chunk are appended but before
`buildKeywordIndex` runs (the state between source lines 137 and 139). -/
def dsMid : DocumentService ℤ := loadTrace.getD 4 dsEmpty

/-- The state after `buildKeywordIndex` completes. -/
def dsFinal : DocumentService ℤ := loadTrace.getD 5 dsEmpty

/-- C9 (code evidence): `LoadFromZip` truncates `documents`, `chunks` and
`keywords` in place and only rebuilds the inverted index at the end,
with no lock anywhere in `DocumentService`; `handleRefreshDocs` can run
it concurrently with `handleChat` searches. The trace state reached
after the chunk list is rebuilt but before `buildKeywordIndex` runs has
a nonempty chunk list paired with an empty inverted index — exactly the
half-rebuilt index the specification says must never be observable — and
a search against it finds nothing although the same search against the
completed state does. -/
theorem load_half_built_state_observable :
    loadTrace.length = 6 ∧
    dsMid.chunks = [chunkL] ∧
    dsMid.keywords "alpha" = [] ∧
    buildKeywordIndex dsMid.chunks "alpha" = [0] ∧
    SearchRelevantChunks (fun _ _ => (1 : ℤ)) dsMid ["alpha"] 5
        (scoreKeys dsMid (extractKeywords ["alpha"])) = [] ∧
    SearchRelevantChunks (fun _ _ => (1 : ℤ)) dsFinal ["alpha"] 5
        (scoreKeys dsFinal (extractKeywords ["alpha"])) ≠ [] := by
  refine ⟨rfl, rfl, rfl, rfl, rfl, ?_⟩
  decide

end Wavie
